import Mathlib

/-!
Verification of the bounded BFS crawler, URL filter, content cleaner and
chunker of swiftscrape_ai (src/scrape_advanced.py), as a shallow embedding.
Python strings are modelled as List Char; machine-external effects
(Selenium fetches, BeautifulSoup parsing, urljoin resolution) are modelled
as oracle functions supplied through a CrawlEnv structure, while every
string manipulation performed by the repository's own code is translated
directly.
-/

set_option autoImplicit false
set_option maxRecDepth 100000

/-! ### Basic Python string operations on List Char -/

/-- Python whitespace characters recognised by str.strip(). -/
def pySpace (c : Char) : Bool :=
  c == ' ' || c == '\t' || c == '\n' || c == '\r' || c == '\x0b' || c == '\x0c'

/-- Python str.strip(): drop whitespace from both ends. -/
def pyStrip (l : List Char) : List Char :=
  ((l.dropWhile pySpace).reverse.dropWhile pySpace).reverse

/-- Python str.rstrip("/"): drop all trailing slash characters
(line 160 and line 205 of scrape_advanced.py). -/
def rstripSlash (l : List Char) : List Char :=
  (l.reverse.dropWhile (fun c => c == '/')).reverse

/-- Link normalization from scrape_website_recursive lines 204-205:
full.split("#")[0].rstrip("/"), i.e. keep the part before the first
fragment marker and strip trailing slashes. -/
def normalizeUrl (l : List Char) : List Char :=
  rstripSlash (l.takeWhile (fun c => c != '#'))

/-- Prefix test on character lists (Python str.startswith). -/
def begMatch : List Char → List Char → Bool
  | [], _ => true
  | _ :: _, [] => false
  | a :: as, b :: bs => a == b && begMatch as bs

/-- Contiguous substring test on character lists (Python "in" on str). -/
def subMatch (p : List Char) : List Char → Bool
  | [] => p.isEmpty
  | c :: rest => begMatch p (c :: rest) || subMatch p rest

/-- Suffix test on character lists (Python str.endswith). -/
def endMatch (p l : List Char) : Bool :=
  begMatch p.reverse l.reverse

/-- Python s[a:b] slicing for 0 ≤ a ≤ b. -/
def pySlice (s : List Char) (a b : Nat) : List Char :=
  (s.drop a).take (b - a)

/-- Python s.rfind(c, start, e): the largest index i with start ≤ i < e and
s[i] = c, as an Option (Python returns -1 when there is none). -/
def rfindChar (s : List Char) (c : Char) (start : Nat) : Nat → Option Nat
  | 0 => none
  | e + 1 => if start ≤ e ∧ s.get? e = some c then some e else rfindChar s c start e

/-! ### Helper lemmas about the basic operations -/

theorem mem_dropWhile {p : Char → Bool} {l : List Char} {x : Char}
    (h : x ∈ l.dropWhile p) : x ∈ l := by
  induction l with
  | nil => simp [List.dropWhile] at h
  | cons c rest ih =>
    by_cases hc : p c
    · simp only [List.dropWhile, hc] at h
      exact List.mem_cons_of_mem _ (ih h)
    · simp only [List.dropWhile, hc] at h
      simpa using h

theorem mem_takeWhile {p : Char → Bool} {l : List Char} {x : Char}
    (h : x ∈ l.takeWhile p) : x ∈ l ∧ p x = true := by
  induction l with
  | nil => simp [List.takeWhile] at h
  | cons c rest ih =>
    by_cases hc : p c
    · simp only [List.takeWhile, hc] at h
      rcases List.mem_cons.mp h with h1 | h2
      · subst h1; exact ⟨List.mem_cons_self _ _, hc⟩
      · rcases ih h2 with ⟨hm, hp⟩
        exact ⟨List.mem_cons_of_mem _ hm, hp⟩
    · simp only [List.takeWhile, hc] at h
      simp at h

theorem takeWhile_eq_self {p : Char → Bool} {l : List Char}
    (h : ∀ x ∈ l, p x = true) : l.takeWhile p = l := by
  induction l with
  | nil => rfl
  | cons c rest ih =>
    have hc : p c = true := h c (List.mem_cons_self _ _)
    simp only [List.takeWhile, hc]
    rw [ih (fun x hx => h x (List.mem_cons_of_mem _ hx))]

theorem dropWhile_dropWhile {p : Char → Bool} (l : List Char) :
    (l.dropWhile p).dropWhile p = l.dropWhile p := by
  induction l with
  | nil => rfl
  | cons c rest ih =>
    by_cases hc : p c
    · simp only [List.dropWhile, hc]; exact ih
    · simp only [List.dropWhile, hc]

theorem rstripSlash_idem (l : List Char) :
    rstripSlash (rstripSlash l) = rstripSlash l := by
  unfold rstripSlash
  rw [List.reverse_reverse, dropWhile_dropWhile]

theorem mem_rstripSlash {l : List Char} {x : Char}
    (h : x ∈ rstripSlash l) : x ∈ l := by
  unfold rstripSlash at h
  rw [List.mem_reverse] at h
  have := mem_dropWhile h
  rwa [List.mem_reverse] at this

theorem normalize_no_hash {u : List Char} {c : Char} (h : c ∈ normalizeUrl u) :
    c ≠ '#' := by
  unfold normalizeUrl at h
  have h2 := mem_rstripSlash h
  have h3 := (mem_takeWhile h2).2
  simpa using h3

theorem normalize_idem_helper (u : List Char) :
    normalizeUrl (normalizeUrl u) = normalizeUrl u := by
  have hns : (normalizeUrl u).takeWhile (fun c => c != '#') = normalizeUrl u :=
    takeWhile_eq_self (fun x hx => by
      have := normalize_no_hash hx
      simpa using this)
  show rstripSlash ((normalizeUrl u).takeWhile (fun c => c != '#')) = normalizeUrl u
  rw [hns]
  unfold normalizeUrl
  exact rstripSlash_idem _

theorem rstripSlash_normalize (u : List Char) :
    rstripSlash (normalizeUrl u) = normalizeUrl u := by
  unfold normalizeUrl
  exact rstripSlash_idem _

/-- Claim C9: the URL normalization applied to discovered links (drop
everything from the first '#', then strip trailing '/' characters) is
idempotent: normalizing twice equals normalizing once. -/
theorem normalize_idempotent (u : List Char) :
    normalizeUrl (normalizeUrl u) = normalizeUrl u :=
  normalize_idem_helper u

/-! ### URL parsing model and the URL filter (is_valid_url, lines 96-112) -/

/-- Drop everything up to and including the first "://" occurrence,
returning none when the separator is absent.  Models the scheme/netloc
boundary used by urllib.parse.urlparse on standard http(s) URLs. -/
def dropScheme : List Char → Option (List Char)
  | ':' :: '/' :: '/' :: rest => some rest
  | _ :: rest => dropScheme rest
  | [] => none

/-- Model of urlparse(url).netloc for standard absolute URLs: the part
after "://" and before the first '/', '?' or '#'. -/
def pyNetloc (u : List Char) : List Char :=
  match dropScheme u with
  | some rest => rest.takeWhile (fun c => c != '/' && c != '?' && c != '#')
  | none => []

/-- Model of urlparse(url).path for standard absolute URLs: the part after
the netloc and before the first '?' or '#'. -/
def pyPath (u : List Char) : List Char :=
  match dropScheme u with
  | some rest =>
      (rest.dropWhile (fun c => c != '/' && c != '?' && c != '#')).takeWhile
        (fun c => c != '?' && c != '#')
  | none => u.takeWhile (fun c => c != '?' && c != '#')

/-- The deny-listed extensions of the skip_extensions regular expression in
is_valid_url (line 103), with the optional groups docx? and pptx? expanded
into their two alternatives. -/
def skipExts : List (List Char) :=
  ["pdf".toList, "jpg".toList, "jpeg".toList, "png".toList, "gif".toList,
   "svg".toList, "ico".toList, "webp".toList, "mp4".toList, "mp3".toList,
   "zip".toList, "exe".toList, "dmg".toList, "doc".toList, "docx".toList,
   "xls".toList, "ppt".toList, "pptx".toList, "css".toList, "js".toList]

/-- The ($|\?) tail of the skip_extensions regular expression: the match is
followed by the end of the string or by a question mark. -/
def tailOk (r : List Char) : Bool :=
  r.isEmpty || r.head? == some '?'

/-- One anchored attempt of the skip_extensions regular expression: the
string starts with a dot, a deny-listed extension and a valid tail. -/
def extHitHere (l : List Char) : Bool :=
  skipExts.any (fun e => begMatch ('.' :: e) l && tailOk (l.drop (e.length + 1)))

/-- re.search of the skip_extensions pattern: try every start position. -/
def extScan : List Char → Bool
  | [] => false
  | c :: cs => extHitHere (c :: cs) || extScan cs

/-- The extension-based rejection test of is_valid_url (lines 103-105):
re.search(skip_extensions, url, re.IGNORECASE) is modelled by scanning the
lowercased URL for a deny-listed extension followed by end or '?'. -/
def extRejected (url : List Char) : Bool :=
  extScan (url.map Char.toLower)

/-- The sensitive path segments of is_valid_url (line 107). -/
def skipPaths : List (List Char) :=
  ["login".toList, "signup".toList, "register".toList, "cart".toList,
   "checkout".toList, "admin".toList]

/-- is_valid_url from scrape_advanced.py lines 96-112: reject empty URLs,
URLs not starting with "http", URLs whose text matches the deny-listed
extension pattern, and URLs whose parsed path contains a sensitive
segment. -/
def is_valid_url (url : List Char) : Bool :=
  if url.isEmpty then false
  else if !(begMatch ("http".toList) url) then false
  else if extRejected url then false
  else if skipPaths.any (fun p => subMatch p ((pyPath url).map Char.toLower)) then false
  else true

/-- Modelled from the spec: the extension-rejection condition as the spec
and claim C6 word it, namely that the URL path itself ends in a
deny-listed extension (the query string being allowed to follow the
path).  Used only to compare the specified behaviour with the embedded
code; the code under src/ is extRejected above. -/
def extRejectedSpec (url : List Char) : Bool :=
  skipExts.any (fun e => endMatch ('.' :: e) ((pyPath url).map Char.toLower))

example : is_valid_url ("https://x.com/a.pdf".toList) = false := by decide
example : is_valid_url ("https://x.com/login".toList) = false := by decide
example : is_valid_url ("https://x.com/products".toList) = true := by decide
example : is_valid_url ("ftp://x.com".toList) = false := by decide
example : pyNetloc ("http://a.com/p#x".toList) = "a.com".toList := by decide
example : pyPath ("http://x.com/page?f=a.pdf".toList) = "/page".toList := by decide
example : extRejected ("http://x.com/page?f=a.pdf".toList) = true := by decide
example : extRejectedSpec ("http://x.com/page?f=a.pdf".toList) = false := by decide
example : extRejected ("http://x.com/A.PDF".toList) = true := by decide

/-! ### The chunker (split_dom_content, lines 231-264) -/

/-- The window-end computation of split_dom_content lines 249-254:
end = min(start + max_length, n); when that end is not already the end of
the text, the rightmost newline of the window pulls the end back, but only
when it lies strictly after start + max_length // 2. -/
def windowEnd (s : List Char) (start maxLen : Nat) : Nat :=
  let e := min (start + maxLen) s.length
  if e < s.length then
    match rfindChar s '\n' start e with
    | some p => if start + maxLen / 2 < p then p else e
    | none => e
  else e

/-- The start-offset update of split_dom_content line 259:
start = max(end - overlap, start + max_length // 2). -/
def nextStart (s : List Char) (start maxLen overlap : Nat) : Nat :=
  max (windowEnd s start maxLen - overlap) (start + maxLen / 2)

/-- The while loop of split_dom_content lines 248-261, indexed by fuel
because the Python loop does not terminate for every parameter choice. -/
def splitLoop (s : List Char) (maxLen overlap : Nat) : Nat → Nat → List (List Char)
  | 0, _ => []
  | fuel + 1, start =>
    if start < s.length then
      let e := windowEnd s start maxLen
      if e < s.length then
        pySlice s start e :: splitLoop s maxLen overlap fuel (nextStart s start maxLen overlap)
      else
        [pySlice s start e]
    else []

/-- split_dom_content from scrape_advanced.py lines 231-264: empty input
gives no chunk, input no longer than max_length gives the single stripped
chunk, and otherwise the windowing loop runs (here with explicit fuel). -/
def split_dom_content (dom : List Char) (maxLen overlap fuel : Nat) : List (List Char) :=
  if dom.isEmpty then []
  else
    let d := pyStrip dom
    if d.length ≤ maxLen then [d]
    else splitLoop d maxLen overlap fuel 0

example : split_dom_content ("abcdefgh".toList) 3 0 10 =
    ["abc".toList, "def".toList, "gh".toList] := by decide
example : split_dom_content ("  ab  ".toList) 100 5 3 = ["ab".toList] := by decide
example : nextStart ("ab".toList) 0 1 1 = 0 := by decide
example : windowEnd ("ab\ncdefgh".toList) 0 4 = 4 := by decide
example : windowEnd ("ab\ncdefgh".toList) 0 5 = 5 := by decide
example : windowEnd ("ab\ncdefgh".toList) 0 6 = 6 := by decide
example : windowEnd ("ab\ncdefgh".toList) 0 7 = 7 := by decide
example : windowEnd ("ab\ncdefgh".toList) 1 4 = 5 := by decide

/-! ### Chunker lemmas -/

theorem rfindChar_lt {s : List Char} {c : Char} {start p : Nat} :
    ∀ {e : Nat}, rfindChar s c start e = some p → start ≤ p ∧ p < e := by
  intro e
  induction e with
  | zero => intro h; simp [rfindChar] at h
  | succ e ih =>
    intro h
    unfold rfindChar at h
    by_cases hc : start ≤ e ∧ s.get? e = some c
    · rw [if_pos hc] at h
      cases h
      exact ⟨hc.1, Nat.lt_succ_self _⟩
    · rw [if_neg hc] at h
      have := ih h
      exact ⟨this.1, Nat.lt_succ_of_lt this.2⟩

theorem rfindChar_eq_some {s : List Char} {c : Char} {start p : Nat}
    (hs : start ≤ p) (hc : s.get? p = some c) :
    ∀ {e : Nat}, p < e → (∀ q, q < e → p < q → s.get? q ≠ some c) →
    rfindChar s c start e = some p := by
  intro e
  induction e with
  | zero => intro h; omega
  | succ e ih =>
    intro hpe hlast
    unfold rfindChar
    by_cases hhit : start ≤ e ∧ s.get? e = some c
    · rw [if_pos hhit]
      have hpeq : p = e := by
        by_contra hne
        have hlt : p < e := by omega
        exact hlast e (Nat.lt_succ_self _) hlt hhit.2
      rw [hpeq]
    · rw [if_neg hhit]
      have hne : p ≠ e := by
        intro heq; exact hhit ⟨heq ▸ hs, heq ▸ hc⟩
      have hlt : p < e := by omega
      exact ih hlt (fun q hq1 hq2 => hlast q (Nat.lt_succ_of_lt hq1) hq2)

theorem windowEnd_le (s : List Char) (start maxLen : Nat) :
    windowEnd s start maxLen ≤ start + maxLen := by
  unfold windowEnd
  by_cases he : min (start + maxLen) s.length < s.length
  · rw [if_pos he]
    cases hf : rfindChar s '\n' start (min (start + maxLen) s.length) with
    | none => simp
    | some p =>
      have hp := rfindChar_lt hf
      by_cases hmid : start + maxLen / 2 < p
      · simp only [hf, if_pos hmid]
        omega
      · simp only [hf, if_neg hmid]
        simp
  · rw [if_neg he]
    simp

theorem pySlice_len_le (s : List Char) (a b : Nat) :
    (pySlice s a b).length ≤ b - a := by
  unfold pySlice
  simp [List.length_take]

theorem splitLoop_chunk_le (s : List Char) (maxLen overlap : Nat) :
    ∀ fuel start c, c ∈ splitLoop s maxLen overlap fuel start → c.length ≤ maxLen := by
  intro fuel
  induction fuel with
  | zero => intro start c hc; simp [splitLoop] at hc
  | succ fuel ih =>
    intro start c hc
    unfold splitLoop at hc
    by_cases hst : start < s.length
    · rw [if_pos hst] at hc
      have hwe : windowEnd s start maxLen ≤ start + maxLen := windowEnd_le s start maxLen
      by_cases he : windowEnd s start maxLen < s.length
      · simp only [if_pos he] at hc
        rcases List.mem_cons.mp hc with h1 | h2
        · subst h1
          calc (pySlice s start (windowEnd s start maxLen)).length
              ≤ windowEnd s start maxLen - start := pySlice_len_le _ _ _
            _ ≤ maxLen := by omega
        · exact ih _ c h2
      · simp only [if_neg he] at hc
        rcases List.mem_singleton.mp hc with h1
        subst h1
        calc (pySlice s start (windowEnd s start maxLen)).length
            ≤ windowEnd s start maxLen - start := pySlice_len_le _ _ _
          _ ≤ maxLen := by omega
    · rw [if_neg hst] at hc
      simp at hc

theorem dropWhile_len_le (p : Char → Bool) (l : List Char) :
    (l.dropWhile p).length ≤ l.length := by
  induction l with
  | nil => simp [List.dropWhile]
  | cons c rest ih =>
    by_cases hc : p c
    · simp only [List.dropWhile, hc]
      exact Nat.le_trans ih (Nat.le_succ _)
    · simp only [List.dropWhile, hc]
      simp

theorem pyStrip_len_le (l : List Char) : (pyStrip l).length ≤ l.length := by
  unfold pyStrip
  calc ((l.dropWhile pySpace).reverse.dropWhile pySpace).reverse.length
      = ((l.dropWhile pySpace).reverse.dropWhile pySpace).length := List.length_reverse _
    _ ≤ (l.dropWhile pySpace).reverse.length := dropWhile_len_le _ _
    _ = (l.dropWhile pySpace).length := List.length_reverse _
    _ ≤ l.length := dropWhile_len_le _ _

/-- Claim C8: every chunk produced by split_dom_content has length at most
max_length, for every input text, max_length, overlap (and fuel): the
newline back-off can only shorten a window, never lengthen it. -/
theorem split_dom_content_chunk_len (dom : List Char) (maxLen overlap fuel : Nat)
    (c : List Char) (hc : c ∈ split_dom_content dom maxLen overlap fuel) :
    c.length ≤ maxLen := by
  unfold split_dom_content at hc
  by_cases hd : dom.isEmpty
  · rw [if_pos hd] at hc; simp at hc
  · rw [if_neg hd] at hc
    by_cases hlen : (pyStrip dom).length ≤ maxLen
    · simp only [if_pos hlen] at hc
      rcases List.mem_singleton.mp hc with h1
      subst h1; exact hlen
    · simp only [if_neg hlen] at hc
      exact splitLoop_chunk_le _ _ _ _ _ _ hc

/-- Witness for claim C8 at a concrete input: the text abcdefgh split with
max_length 3 produces the chunk abc, of length at most 3. -/
theorem split_dom_content_chunk_len_witness :
    ("abc".toList ∈ split_dom_content ("abcdefgh".toList) 3 0 10) ∧
      ("abc".toList).length ≤ 3 :=
  ⟨by decide, split_dom_content_chunk_len ("abcdefgh".toList) 3 0 10 ("abc".toList) (by decide)⟩

theorem nextStart_advance (s : List Char) (m o start : Nat) (hm : 2 ≤ m) :
    start < nextStart s start m o := by
  unfold nextStart
  have h1 : 1 ≤ m / 2 := by omega
  have h2 : start + m / 2 ≤ max (windowEnd s start m - o) (start + m / 2) :=
    Nat.le_max_right _ _
  omega

theorem splitLoop_done (s : List Char) (m o : Nat) (fuel start : Nat)
    (h : s.length ≤ start) : splitLoop s m o fuel start = [] := by
  cases fuel with
  | zero => rfl
  | succ fuel =>
    unfold splitLoop
    rw [if_neg (by omega)]

theorem splitLoop_stable (s : List Char) (m o : Nat) (hm : 2 ≤ m) :
    ∀ f1 f2 start, s.length ≤ start + f1 → s.length ≤ start + f2 →
    splitLoop s m o f1 start = splitLoop s m o f2 start := by
  intro f1
  induction f1 with
  | zero =>
    intro f2 start h1 h2
    rw [splitLoop_done s m o 0 start (by omega), splitLoop_done s m o f2 start (by omega)]
  | succ f1 ih =>
    intro f2 start h1 h2
    cases f2 with
    | zero =>
      rw [splitLoop_done s m o _ start (by omega), splitLoop_done s m o 0 start (by omega)]
    | succ f2 =>
      by_cases hst : start < s.length
      · show splitLoop s m o (f1 + 1) start = splitLoop s m o (f2 + 1) start
        unfold splitLoop
        rw [if_pos hst, if_pos hst]
        by_cases he : windowEnd s start m < s.length
        · simp only [if_pos he]
          have hadv := nextStart_advance s m o start hm
          rw [ih f2 (nextStart s start m o) (by omega) (by omega)]
        · simp only [if_neg he]
      · rw [splitLoop_done s m o _ start (by omega), splitLoop_done s m o _ start (by omega)]

/-- Claim C2 (amended): for max_length at least 2 the chunking loop makes
strict forward progress on every iteration, and hence terminates: the
result of the fuelled loop is the same for every sufficient fuel.  For
max_length = 1 progress fails (see the counterexample). -/
theorem splitLoop_progress_stable (s : List Char) (m o : Nat) (hm : 2 ≤ m) :
    (∀ start, start < nextStart s start m o) ∧
      (∀ f1 f2 start, s.length ≤ start + f1 → s.length ≤ start + f2 →
        splitLoop s m o f1 start = splitLoop s m o f2 start) :=
  ⟨fun start => nextStart_advance s m o start hm, splitLoop_stable s m o hm⟩

/-- Witness for the amended claim C2: on the 8-character text abcdefgh with
max_length 3 and overlap 1 the loop start strictly advances from 0, and
fuels 10 and 20 (both at least the text length) give the same chunks. -/
theorem splitLoop_progress_stable_witness :
    (0 < nextStart ("abcdefgh".toList) 0 3 1) ∧
      splitLoop ("abcdefgh".toList) 3 1 10 0 = splitLoop ("abcdefgh".toList) 3 1 20 0 := by
  have h := splitLoop_progress_stable ("abcdefgh".toList) 3 1 (by decide)
  exact ⟨h.1 0, h.2 10 20 0 (by decide) (by decide)⟩

/-- Counterexample for claim C2 as stated: with max_length = 1 (allowed by
the claim, which requires only max_length at least 1) and overlap = 1 on the
text ab, the loop is entered (the stripped text is longer than max_length)
but the start offset does not advance: nextStart returns 0 from 0, and the
fuelled loop keeps producing chunks forever, so fuels 50 and 60 disagree. -/
theorem split_dom_content_no_progress :
    1 < ("ab".toList).length ∧
      nextStart ("ab".toList) 0 1 1 = 0 ∧
      split_dom_content ("ab".toList) 1 1 50 ≠ split_dom_content ("ab".toList) 1 1 60 := by
  refine ⟨by decide, by decide, ?_⟩
  decide

/-- Claim C7 (amended): when the window does not already reach the end of
the text and p is the rightmost newline inside the window, the window
boundary is pulled back to p if and only if p lies strictly after the
window midpoint start + max_length / 2; a newline exactly at the midpoint
is not used. -/
theorem windowEnd_pull_iff (s : List Char) (start m p : Nat)
    (he : min (start + m) s.length < s.length)
    (hsp : start ≤ p) (hpe : p < min (start + m) s.length)
    (hnl : s.get? p = some '\n')
    (hlast : ∀ q, q < min (start + m) s.length → p < q → s.get? q ≠ some '\n') :
    (windowEnd s start m = p ↔ start + m / 2 < p) := by
  have hf : rfindChar s '\n' start (min (start + m) s.length) = some p :=
    rfindChar_eq_some hsp hnl hpe hlast
  unfold windowEnd
  rw [if_pos he]
  simp only [hf]
  by_cases hmid : start + m / 2 < p
  · rw [if_pos hmid]
    simp [hmid]
  · rw [if_neg hmid]
    constructor
    · intro heq; omega
    · intro h; omega

/-- Witness for the amended claim C7: in ab(newline)cdefgh with start 0 and
max_length 5, the rightmost window newline sits at index 2, the midpoint is
2, and the boundary is not pulled back: the iff instantiates to a false
left side matching the false right side. -/
theorem windowEnd_pull_iff_witness :
    (windowEnd ("ab\ncdefgh".toList) 0 5 = 2 ↔ 0 + 5 / 2 < 2) :=
  windowEnd_pull_iff ("ab\ncdefgh".toList) 0 5 2 (by decide) (by decide) (by decide)
    (by decide) (by decide)

/-- Counterexample for claim C7 as stated: in ab(newline)cdefgh with
start 0 and max_length 4 the rightmost newline of the window lies at
index 2, exactly at the midpoint start + max_length / 2 = 2, yet the
boundary stays at 4 instead of being pulled back to 2: the code requires
the newline to lie strictly after the midpoint, not at-or-after it. -/
theorem windowEnd_midpoint_not_used :
    min (0 + 4) ("ab\ncdefgh".toList).length < ("ab\ncdefgh".toList).length ∧
      rfindChar ("ab\ncdefgh".toList) '\n' 0 (min (0 + 4) ("ab\ncdefgh".toList).length) = some 2 ∧
      0 + 4 / 2 = 2 ∧
      windowEnd ("ab\ncdefgh".toList) 0 4 = 4 := by
  refine ⟨by decide, by decide, by decide, by decide⟩

/-! ### The crawl scheduler (scrape_website_recursive, lines 151-228) -/

/-- Oracles for the effects the crawler delegates to external libraries:
fetch models scrape_page (Selenium page_source for a URL), hrefs models
BeautifulSoup link extraction plus urljoin resolution (the list of
absolute href values of the page, before the normalization of line 205),
and clean models clean_body_content composed with extract_body. -/
structure CrawlEnv where
  fetch : List Char → List Char
  hrefs : List Char → List Char → List (List Char)
  clean : List Char → List Char

/-- The mutable state of the crawl loop: the frontier queue (FIFO), the
visited set (modelled as the list of its elements) and the result mapping
(an association list in insertion order). -/
structure CrawlState where
  queue : List (List Char)
  visited : List (List Char)
  results : List (List Char × List Char)

/-- The link-enqueueing loop of lines 203-209: each href is normalized and
appended to the queue when it is not visited, passes is_valid_url, and
same_domain is enabled with a matching domain.  Note that when sameDomain
is false the inner conditional of line 208 has no else branch, so nothing
is ever enqueued. -/
def enqueueLinks (sameDomain : Bool) (domain : List Char)
    (visited : List (List Char)) : List (List Char) → List (List Char) → List (List Char)
  | queue, [] => queue
  | queue, h :: hs =>
    let full := normalizeUrl h
    enqueueLinks sameDomain domain visited
      (if full ∉ visited ∧ is_valid_url full = true then
        (if sameDomain = true ∧ pyNetloc full = domain then queue ++ [full] else queue)
       else queue) hs

/-- One iteration of the crawl loop body (lines 176-211): dequeue, skip
when already visited or out of domain, skip short pages while marking them
visited, otherwise record sufficiently long cleaned content, mark visited
and enqueue the discovered links. -/
def crawlStep (env : CrawlEnv) (sameDomain : Bool) (domain : List Char)
    (s : CrawlState) : CrawlState :=
  match s.queue with
  | [] => s
  | current :: rest =>
    if current ∈ s.visited then ⟨rest, s.visited, s.results⟩
    else if sameDomain = true ∧ pyNetloc current ≠ domain then ⟨rest, s.visited, s.results⟩
    else
      let html := env.fetch current
      if html.isEmpty ∨ html.length < 500 then ⟨rest, current :: s.visited, s.results⟩
      else
        let cleaned := env.clean html
        let results2 :=
          if ¬cleaned.isEmpty ∧ 200 < cleaned.length then
            s.results ++ [(current, cleaned)]
          else s.results
        ⟨enqueueLinks sameDomain domain (current :: s.visited) rest (env.hrefs current html),
          current :: s.visited, results2⟩

/-- The while loop of line 175: run while the queue is nonempty and fewer
than maxPages URLs are visited, with explicit fuel. -/
def crawlLoop (env : CrawlEnv) (sameDomain : Bool) (domain : List Char)
    (maxPages : Nat) : Nat → CrawlState → CrawlState
  | 0, s => s
  | fuel + 1, s =>
    if ¬s.queue.isEmpty ∧ s.visited.length < maxPages then
      crawlLoop env sameDomain domain maxPages fuel (crawlStep env sameDomain domain s)
    else s

/-- scrape_website_recursive (lines 151-228): strip trailing slashes from
the start URL, anchor the domain, and run the loop from the singleton
queue with empty visited set and results. -/
def crawl (env : CrawlEnv) (startUrl : List Char) (maxPages : Nat)
    (sameDomain : Bool) (fuel : Nat) : CrawlState :=
  let start := rstripSlash startUrl
  crawlLoop env sameDomain (pyNetloc start) maxPages fuel ⟨[start], [], []⟩

/-- A crawl environment whose pages are large enough to be processed and
carry two identical links to the same target URL. -/
def envDup : CrawlEnv where
  fetch := fun _ => List.replicate 500 'a'
  hrefs := fun _ _ => ["http://a.com/x".toList, "http://a.com/x".toList]
  clean := fun _ => []

/-- A crawl environment whose pages are large enough to be processed,
yield cleaned text above the 200-character threshold and carry no links. -/
def envContent : CrawlEnv where
  fetch := fun _ => List.replicate 500 'a'
  hrefs := fun _ _ => []
  clean := fun _ => List.replicate 201 'b'

example : (crawl envDup ("http://a.com".toList) 5 true 1).queue =
    ["http://a.com/x".toList, "http://a.com/x".toList] := by decide
example : (crawl envContent ("http://a.com/p#x".toList) 1 true 1).results.map Prod.fst =
    [("http://a.com/p#x".toList)] := by decide
example : (crawl envContent ("http://a.com/".toList) 1 true 1).results.map Prod.fst =
    [("http://a.com".toList)] := by decide

/-! ### Crawl invariants -/

theorem crawlStep_visited_le (env : CrawlEnv) (sd : Bool) (d : List Char)
    (s : CrawlState) :
    (crawlStep env sd d s).visited.length ≤ s.visited.length + 1 := by
  obtain ⟨q, v, r⟩ := s
  cases q with
  | nil => simp [crawlStep]
  | cons current rest =>
    simp only [crawlStep]
    split_ifs <;> simp

theorem crawlLoop_visited_bound (env : CrawlEnv) (sd : Bool) (d : List Char)
    (mp : Nat) :
    ∀ fuel s, s.visited.length ≤ mp →
      (crawlLoop env sd d mp fuel s).visited.length ≤ mp := by
  intro fuel
  induction fuel with
  | zero => intro s h; exact h
  | succ fuel ih =>
    intro s h
    unfold crawlLoop
    by_cases hc : ¬s.queue.isEmpty ∧ s.visited.length < mp
    · rw [if_pos hc]
      apply ih
      have := crawlStep_visited_le env sd d s
      omega
    · rw [if_neg hc]
      exact h

/-- Claim C4: for every environment, start URL, positive page budget,
domain flag and fuel, the number of visited URLs when the loop stops is at
most max_pages: the loop runs only while the visited count is below the
budget and each iteration visits at most one new URL. -/
theorem crawl_budget_bound (env : CrawlEnv) (startUrl : List Char) (mp : Nat)
    (sd : Bool) (fuel : Nat) (_hmp : 1 ≤ mp) :
    (crawl env startUrl mp sd fuel).visited.length ≤ mp := by
  unfold crawl
  exact crawlLoop_visited_bound env sd (pyNetloc (rstripSlash startUrl)) mp fuel
    ⟨[rstripSlash startUrl], [], []⟩ (by simp)

/-- Witness for claim C4 at a concrete input: a crawl of http://a.com with
budget 1 over the duplicate-link environment visits at most one page. -/
theorem crawl_budget_bound_witness :
    (crawl envDup ("http://a.com".toList) 1 true 5).visited.length ≤ 1 :=
  crawl_budget_bound envDup ("http://a.com".toList) 1 true 5 (by decide)

theorem crawlStep_visited_nodup (env : CrawlEnv) (sd : Bool) (d : List Char)
    (s : CrawlState) (h : s.visited.Nodup) :
    (crawlStep env sd d s).visited.Nodup := by
  obtain ⟨q, v, r⟩ := s
  cases q with
  | nil => exact h
  | cons current rest =>
    simp only [crawlStep]
    split_ifs with h1 h2 h3 <;> simp_all [List.nodup_cons]

theorem crawlLoop_visited_nodup (env : CrawlEnv) (sd : Bool) (d : List Char)
    (mp : Nat) :
    ∀ fuel s, s.visited.Nodup → (crawlLoop env sd d mp fuel s).visited.Nodup := by
  intro fuel
  induction fuel with
  | zero => intro s h; exact h
  | succ fuel ih =>
    intro s h
    unfold crawlLoop
    by_cases hc : ¬s.queue.isEmpty ∧ s.visited.length < mp
    · rw [if_pos hc]
      exact ih _ (crawlStep_visited_nodup env sd d s h)
    · rw [if_neg hc]
      exact h

/-- Claim C3 (amended): the visited set never contains a URL twice — each
dequeued URL is processed at most once — although the frontier queue may
hold duplicate entries, because enqueueing checks only the visited set. -/
theorem crawl_visited_nodup (env : CrawlEnv) (startUrl : List Char) (mp : Nat)
    (sd : Bool) (fuel : Nat) :
    (crawl env startUrl mp sd fuel).visited.Nodup := by
  unfold crawl
  exact crawlLoop_visited_nodup env sd (pyNetloc (rstripSlash startUrl)) mp fuel
    ⟨[rstripSlash startUrl], [], []⟩ (by simp)

/-- Counterexample for claim C3 as stated: processing the page at
http://a.com, whose markup carries two anchors resolving to the same URL
http://a.com/x, enqueues that URL twice — the queue invariant of the claim
is violated because line 207 checks the visited set but not the queue. -/
theorem crawl_queue_duplicate :
    ¬ (crawl envDup ("http://a.com".toList) 5 true 1).queue.Nodup := by
  decide

theorem enqueueLinks_mem (sd : Bool) (d : List Char) (v : List (List Char)) :
    ∀ hs q x, x ∈ enqueueLinks sd d v q hs →
      x ∈ q ∨ ∃ h ∈ hs, x = normalizeUrl h := by
  intro hs
  induction hs with
  | nil => intro q x hx; exact Or.inl hx
  | cons h hs ih =>
    intro q x hx
    unfold enqueueLinks at hx
    rcases ih _ x hx with hq | ⟨h2, hm, he⟩
    · by_cases hcnd : normalizeUrl h ∉ v ∧ is_valid_url (normalizeUrl h) = true
      · rw [if_pos hcnd] at hq
        by_cases hdom : sd = true ∧ pyNetloc (normalizeUrl h) = d
        · rw [if_pos hdom] at hq
          rcases List.mem_append.mp hq with hq1 | hq2
          · exact Or.inl hq1
          · refine Or.inr ⟨h, List.mem_cons_self _ _, ?_⟩
            simpa using hq2
        · rw [if_neg hdom] at hq
          exact Or.inl hq
      · rw [if_neg hcnd] at hq
        exact Or.inl hq
    · exact Or.inr ⟨h2, List.mem_cons_of_mem _ hm, he⟩

/-- The shape of URLs circulating in the crawl state: every queued URL and
every result key either is the slash-stripped start URL or is a fully
normalized URL (a fixed point of normalizeUrl); in both cases it carries
no trailing slash. -/
def UrlShapeInv (start : List Char) (s : CrawlState) : Prop :=
  (∀ q ∈ s.queue, rstripSlash q = q ∧ (q = start ∨ normalizeUrl q = q)) ∧
    (∀ k ∈ s.results.map Prod.fst, rstripSlash k = k ∧ (k = start ∨ normalizeUrl k = k))

theorem crawlStep_shape (env : CrawlEnv) (sd : Bool) (d start : List Char)
    (s : CrawlState) (h : UrlShapeInv start s) :
    UrlShapeInv start (crawlStep env sd d s) := by
  obtain ⟨q, v, r⟩ := s
  obtain ⟨hq, hk⟩ := h
  cases q with
  | nil => exact ⟨hq, hk⟩
  | cons current rest =>
    have hrest : ∀ x ∈ rest, rstripSlash x = x ∧ (x = start ∨ normalizeUrl x = x) :=
      fun x hx => hq x (List.mem_cons_of_mem _ hx)
    have hcur : rstripSlash current = current ∧
        (current = start ∨ normalizeUrl current = current) :=
      hq current (List.mem_cons_self _ _)
    have hq2 : ∀ x ∈ enqueueLinks sd d (current :: v) rest
        (env.hrefs current (env.fetch current)),
        rstripSlash x = x ∧ (x = start ∨ normalizeUrl x = x) := by
      intro x hx
      rcases enqueueLinks_mem sd d (current :: v) _ _ x hx with hx1 | ⟨h5, _, he⟩
      · exact hrest x hx1
      · subst he
        exact ⟨rstripSlash_normalize h5, Or.inr (normalize_idem_helper h5)⟩
    simp only [crawlStep]
    split_ifs with h1 h2 h3 h4
    · exact ⟨hrest, hk⟩
    · exact ⟨hrest, hk⟩
    · exact ⟨hrest, hk⟩
    · refine ⟨hq2, ?_⟩
      intro k hk2
      simp only [List.map_append, List.map_cons, List.map_nil] at hk2
      rcases List.mem_append.mp hk2 with hk3 | hk4
      · exact hk k hk3
      · rcases List.mem_singleton.mp hk4 with hk5
        subst hk5
        exact hcur
    · exact ⟨hq2, hk⟩

theorem crawlLoop_shape (env : CrawlEnv) (sd : Bool) (d start : List Char)
    (mp : Nat) :
    ∀ fuel s, UrlShapeInv start s →
      UrlShapeInv start (crawlLoop env sd d mp fuel s) := by
  intro fuel
  induction fuel with
  | zero => intro s h; exact h
  | succ fuel ih =>
    intro s h
    unfold crawlLoop
    by_cases hc : ¬s.queue.isEmpty ∧ s.visited.length < mp
    · rw [if_pos hc]
      exact ih _ (crawlStep_shape env sd d start s h)
    · rw [if_neg hc]
      exact h

/-- Claim C5 (amended): every key of the result mapping has no trailing
slash, and every key other than the slash-stripped start URL is a fixed
point of the link normalization (no trailing slash and no fragment); the
start URL itself only has its trailing slashes stripped, so it can keep a
fragment (see the counterexample). -/
theorem crawl_keys_normalized (env : CrawlEnv) (startUrl : List Char)
    (mp : Nat) (sd : Bool) (fuel : Nat) (k : List Char)
    (hk : k ∈ (crawl env startUrl mp sd fuel).results.map Prod.fst) :
    rstripSlash k = k ∧
      (k = rstripSlash startUrl ∨ normalizeUrl k = k) := by
  have hinv : UrlShapeInv (rstripSlash startUrl)
      (crawl env startUrl mp sd fuel) := by
    unfold crawl
    apply crawlLoop_shape
    constructor
    · intro q hq
      rcases List.mem_singleton.mp hq with h1
      subst h1
      exact ⟨rstripSlash_idem _, Or.inl rfl⟩
    · intro k2 hk2
      simp at hk2
  exact hinv.2 k hk

/-- Witness for the amended claim C5: crawling http://a.com/ (with trailing
slash) over the content environment yields the single key http://a.com,
which has no trailing slash and equals the slash-stripped start URL. -/
theorem crawl_keys_normalized_witness :
    rstripSlash ("http://a.com".toList) = "http://a.com".toList ∧
      ("http://a.com".toList = rstripSlash ("http://a.com/".toList) ∨
        normalizeUrl ("http://a.com".toList) = "http://a.com".toList) :=
  crawl_keys_normalized envContent ("http://a.com/".toList) 1 true 1
    ("http://a.com".toList) (by decide)

/-- Counterexample for claim C5 as stated: starting the crawl at
http://a.com/p#x, only trailing slashes are stripped from the start URL
(line 160), the fragment is kept, and the page is recorded under the key
http://a.com/p#x, which still contains a fragment part and is not a fixed
point of the normalization applied to discovered links. -/
theorem crawl_start_key_keeps_fragment :
    (crawl envContent ("http://a.com/p#x".toList) 1 true 1).results.map Prod.fst =
        [("http://a.com/p#x".toList)] ∧
      normalizeUrl ("http://a.com/p#x".toList) ≠ "http://a.com/p#x".toList := by
  exact ⟨by decide, by decide⟩

theorem enqueueLinks_not_same_domain (d : List Char) (v : List (List Char)) :
    ∀ hs q, enqueueLinks false d v q hs = q := by
  intro hs
  induction hs with
  | nil => intro q; rfl
  | cons h hs ih =>
    intro q
    simp only [enqueueLinks, ih]
    split_ifs with a b
    · simp at b
    · rfl
    · rfl

theorem crawlLoop_empty_queue (env : CrawlEnv) (sd : Bool) (d : List Char)
    (mp : Nat) (fuel : Nat) (s : CrawlState) (h : s.queue = []) :
    crawlLoop env sd d mp fuel s = s := by
  cases fuel with
  | zero => rfl
  | succ fuel =>
    unfold crawlLoop
    rw [if_neg (by simp [h])]

/-- Claim C1 (refuted; the code contradicts the specified intent): with
same-domain scoping disabled the inner conditional of line 208 has no
else branch, so no discovered link is ever enqueued, no matter whether it
is valid and unvisited; consequently any crawl with same_domain = False
has an empty frontier after its first iteration. -/
theorem enqueueLinks_none_when_not_same_domain :
    (∀ d v hs q, enqueueLinks false d v q hs = q) ∧
      (∀ env startUrl mp fuel, 0 < mp →
        (crawl env startUrl mp false (fuel + 1)).queue = []) := by
  constructor
  · intro d v hs q; exact enqueueLinks_not_same_domain d v hs q
  · intro env startUrl mp fuel hmp
    unfold crawl
    unfold crawlLoop
    rw [if_pos (by simp; omega)]
    set start := rstripSlash startUrl with hstart
    have hstep : (crawlStep env false (pyNetloc start) ⟨[start], [], []⟩).queue = [] := by
      simp only [crawlStep]
      split_ifs with h1 h2 h3
      · simp at h1
      · rfl
      · rfl
      · exact enqueueLinks_not_same_domain _ _ _ _
      · exact enqueueLinks_not_same_domain _ _ _ _
    rw [crawlLoop_empty_queue env false (pyNetloc start) mp fuel _ hstep]
    exact hstep

/-- Witness for the claim C1 theorem: a crawl of http://a.com with
same_domain disabled over the duplicate-link environment — whose page
carries two valid, unvisited links — ends its first iteration with an
empty queue, and enqueueLinks returns the queue unchanged. -/
theorem enqueueLinks_none_when_not_same_domain_witness :
    enqueueLinks false ("a.com".toList) [] [] ["http://b.com/page".toList] = [] ∧
      (crawl envDup ("http://a.com".toList) 3 false 7).queue = [] := by
  have h := enqueueLinks_none_when_not_same_domain
  exact ⟨h.1 ("a.com".toList) [] ["http://b.com/page".toList] [],
    h.2 envDup ("http://a.com".toList) 3 6 (by decide)⟩

/-! ### Characterization of the extension deny-list matching (claim C6) -/

theorem begMatch_iff (p : List Char) :
    ∀ l, begMatch p l = true ↔ ∃ t, l = p ++ t := by
  induction p with
  | nil =>
    intro l
    simp [begMatch]
  | cons a as ih =>
    intro l
    cases l with
    | nil =>
      simp [begMatch]
    | cons b bs =>
      simp only [begMatch, Bool.and_eq_true, beq_iff_eq]
      constructor
      · rintro ⟨hab, hm⟩
        rcases (ih bs).mp hm with ⟨t, ht⟩
        exact ⟨t, by simp [hab, ht]⟩
      · rintro ⟨t, ht⟩
        simp only [List.cons_append] at ht
        cases ht
        exact ⟨rfl, (ih (as ++ t)).mpr ⟨t, rfl⟩⟩

theorem tailOk_iff (r : List Char) :
    tailOk r = true ↔ r = [] ∨ r.head? = some '?' := by
  unfold tailOk
  cases r with
  | nil => simp
  | cons c rest => simp

theorem extHitHere_iff (l : List Char) :
    extHitHere l = true ↔
      ∃ e b, e ∈ skipExts ∧ l = '.' :: (e ++ b) ∧ (b = [] ∨ b.head? = some '?') := by
  unfold extHitHere
  rw [List.any_eq_true]
  constructor
  · rintro ⟨e, he, hm⟩
    rw [Bool.and_eq_true] at hm
    rcases (begMatch_iff ('.' :: e) l).mp hm.1 with ⟨b, hb⟩
    refine ⟨e, b, he, by simpa using hb, ?_⟩
    have hdrop : l.drop (e.length + 1) = b := by
      rw [hb]
      simp only [List.cons_append]
      rw [List.drop_succ_cons]
      have : e.length = (e ++ b).length - b.length := by simp
      rw [List.drop_append_of_le_length (by simp)]
      simp
    rw [hdrop] at hm
    exact (tailOk_iff b).mp hm.2
  · rintro ⟨e, b, he, hl, hb⟩
    refine ⟨e, he, ?_⟩
    rw [Bool.and_eq_true]
    constructor
    · exact (begMatch_iff ('.' :: e) l).mpr ⟨b, by simpa using hl⟩
    · have hdrop : l.drop (e.length + 1) = b := by
        rw [hl]
        rw [List.drop_succ_cons]
        rw [List.drop_append_of_le_length (by simp)]
        simp
      rw [hdrop]
      exact (tailOk_iff b).mpr hb

theorem extScan_iff (l : List Char) :
    extScan l = true ↔ ∃ a t, l = a ++ t ∧ extHitHere t = true := by
  induction l with
  | nil =>
    simp only [extScan]
    constructor
    · intro h; simp at h
    · rintro ⟨a, t, hl, ht⟩
      have ha : a = [] := by
        cases a <;> simp_all
      subst ha
      simp at hl
      subst hl
      rw [extHitHere_iff] at ht
      rcases ht with ⟨e, b, _, ht2, _⟩
      simp at ht2
  | cons c cs ih =>
    simp only [extScan, Bool.or_eq_true]
    constructor
    · rintro (h | h)
      · exact ⟨[], c :: cs, rfl, h⟩
      · rcases ih.mp h with ⟨a, t, hl, ht⟩
        exact ⟨c :: a, t, by simp [hl], ht⟩
    · rintro ⟨a, t, hl, ht⟩
      cases a with
      | nil =>
        simp at hl
        subst hl
        exact Or.inl ht
      | cons a0 as =>
        simp only [List.cons_append] at hl
        cases hl
        exact Or.inr (ih.mpr ⟨as, t, rfl, ht⟩)

/-- Claim C6 (amended): is_valid_url rejects a URL on extension grounds
exactly when the lowercased URL contains, at any position — in the path or
in the query string — a dot, a deny-listed extension and then either the
end of the URL or a question mark.  This characterizes the
re.search(skip_extensions, url, re.IGNORECASE) test of lines 103-104; it
is not restricted to extensions ending the URL path. -/
theorem extRejected_characterization (u : List Char) :
    extRejected u = true ↔
      ∃ a e b, e ∈ skipExts ∧
        u.map Char.toLower = a ++ '.' :: (e ++ b) ∧
        (b = [] ∨ b.head? = some '?') := by
  unfold extRejected
  rw [extScan_iff]
  constructor
  · rintro ⟨a, t, hl, ht⟩
    rcases (extHitHere_iff t).mp ht with ⟨e, b, he, ht2, hb⟩
    exact ⟨a, e, b, he, by rw [hl, ht2], hb⟩
  · rintro ⟨a, e, b, he, hl, hb⟩
    exact ⟨a, '.' :: (e ++ b), hl, (extHitHere_iff _).mpr ⟨e, b, he, rfl, hb⟩⟩

/-- Counterexample for claim C6 as stated: in
http://x.com/page?f=a.pdf the deny-listed extension pdf occurs only inside
the query string — the URL path is /page — yet is_valid_url rejects the
URL, because re.search scans the whole URL and the extension is followed
by the end of the string. -/
theorem extRejected_query_only :
    extRejected ("http://x.com/page?f=a.pdf".toList) = true ∧
      extRejectedSpec ("http://x.com/page?f=a.pdf".toList) = false ∧
      is_valid_url ("http://x.com/page?f=a.pdf".toList) = false := by
  exact ⟨by decide, by decide, by decide⟩

/-! ### The content cleaner (clean_body_content, lines 79-93) -/

/-- The line-break characters recognised by Python str.splitlines. -/
def isLineBreak (c : Char) : Bool :=
  c == '\n' || c == '\r' || c == '\x0b' || c == '\x0c' || c == '\x1c' ||
    c == '\x1d' || c == '\x1e' || c == '\x85' || c == '\u2028' || c == '\u2029'

/-- Worker for Python str.splitlines: acc accumulates the current line in
reverse; a carriage return followed by a newline counts as one break, and
a trailing break produces no empty final line. -/
def splitlinesGo : List Char → List Char → List (List Char)
  | acc, [] => if acc.isEmpty then [] else [acc.reverse]
  | acc, c :: rest =>
    if isLineBreak c then
      match rest with
      | d :: rest2 =>
        if c == '\r' && d == '\n' then acc.reverse :: splitlinesGo [] rest2
        else acc.reverse :: splitlinesGo [] (d :: rest2)
      | [] => [acc.reverse]
    else splitlinesGo (c :: acc) rest

/-- Python str.splitlines. -/
def pySplitlines (l : List Char) : List (List Char) :=
  splitlinesGo [] l

/-- Worker for the newline-collapsing regular expression substitution
re.sub(three or more newlines, two newlines): run counts the pending
consecutive newlines, and each maximal run is emitted capped at two. -/
def collapseGo (run : Nat) : List Char → List Char
  | [] => List.replicate (min run 2) '\n'
  | c :: rest =>
    if c = '\n' then collapseGo (run + 1) rest
    else List.replicate (min run 2) '\n' ++ c :: collapseGo 0 rest

/-- The substitution of line 91: every run of three or more newlines is
replaced by exactly two newlines. -/
def collapseNewlines (l : List Char) : List Char :=
  collapseGo 0 l

/-- Decides whether two consecutive newline characters occur anywhere. -/
def hasDoubleNl : List Char → Bool
  | [] => false
  | c :: rest => (c == '\n' && rest.head? == some '\n') || hasDoubleNl rest

/-- Python "\n".join on a list of lines. -/
def joinNl : List (List Char) → List Char
  | [] => []
  | p :: ps =>
    match ps with
    | [] => p
    | _ :: _ => p ++ '\n' :: joinNl ps

/-- The line pipeline of clean_body_content lines 87-88: split the text
extracted from the soup into lines, strip each, and keep only the
non-empty lines longer than 3 characters. -/
def cleanedLines (text : List Char) : List (List Char) :=
  ((pySplitlines text).map pyStrip).filter (fun l => decide (¬l.isEmpty ∧ 3 < l.length))

/-- clean_body_content lines 86-93 applied to the text produced by the
external soup.get_text(separator = newline) call, which is the function's
only non-library input: join the filtered lines with newlines and collapse
runs of three or more newlines. -/
def clean_body_text (text : List Char) : List Char :=
  collapseNewlines (joinNl (cleanedLines text))

example : pySplitlines ("ab\ncd".toList) = ["ab".toList, "cd".toList] := by decide
example : pySplitlines ("ab\r\ncd\n".toList) = ["ab".toList, "cd".toList] := by decide
example : pySplitlines ("a\n\nb".toList) = ["a".toList, [], "b".toList] := by decide
example : pySplitlines ([] : List Char) = [] := by decide
example : collapseNewlines ("a\n\n\n\nb".toList) = "a\n\nb".toList := by decide
example : collapseNewlines ("a\n\nb".toList) = "a\n\nb".toList := by decide
example : clean_body_text ("hello\nab\nworld wide\n\n\n\nxyzw".toList) =
    "hello\nworld wide\nxyzw".toList := by decide

/-! ### Cleaner lemmas (claim C10) -/

theorem slg_cons_nb (acc : List Char) (c : Char) (rest : List Char)
    (h : isLineBreak c = false) :
    splitlinesGo acc (c :: rest) = splitlinesGo (c :: acc) rest := by
  cases rest with
  | nil => rw [splitlinesGo.eq_3, if_neg (by simp [h])]
  | cons d rest2 => rw [splitlinesGo.eq_2, if_neg (by simp [h])]

theorem slg_cons_break (acc : List Char) (c : Char) (rest : List Char)
    (hb : isLineBreak c = true) (hcr : ¬(c = '\r' ∧ rest.head? = some '\n')) :
    splitlinesGo acc (c :: rest) = acc.reverse :: splitlinesGo [] rest := by
  cases rest with
  | nil =>
    rw [splitlinesGo.eq_3, if_pos hb, splitlinesGo.eq_1]
    rfl
  | cons d rest2 =>
    rw [splitlinesGo.eq_2, if_pos hb]
    rw [if_neg ?hne]
    case hne =>
      intro hcd
      rw [Bool.and_eq_true, beq_iff_eq, beq_iff_eq] at hcd
      exact hcr ⟨hcd.1, by rw [hcd.2]; rfl⟩

theorem slg_crlf (acc : List Char) (rest2 : List Char) :
    splitlinesGo acc ('\r' :: '\n' :: rest2) = acc.reverse :: splitlinesGo [] rest2 := by
  rw [splitlinesGo.eq_2, if_pos (by decide), if_pos (by decide)]

theorem splitlinesGo_pieces_free :
    ∀ n (l : List Char), l.length ≤ n → ∀ acc, (∀ c ∈ acc, isLineBreak c = false) →
    ∀ p ∈ splitlinesGo acc l, ∀ c ∈ p, isLineBreak c = false := by
  intro n
  induction n with
  | zero =>
    intro l hn acc hacc p hp c hc
    have hl : l = [] := by
      cases l with
      | nil => rfl
      | cons a b => simp at hn
    subst hl
    rw [splitlinesGo.eq_1] at hp
    by_cases ha : acc.isEmpty
    · rw [if_pos ha] at hp; simp at hp
    · rw [if_neg ha] at hp
      rcases List.mem_singleton.mp hp with h1
      subst h1
      rw [List.mem_reverse] at hc
      exact hacc c hc
  | succ n ih =>
    intro l hn acc hacc p hp c hc
    cases l with
    | nil =>
      rw [splitlinesGo.eq_1] at hp
      by_cases ha : acc.isEmpty
      · rw [if_pos ha] at hp; simp at hp
      · rw [if_neg ha] at hp
        rcases List.mem_singleton.mp hp with h1
        subst h1
        rw [List.mem_reverse] at hc
        exact hacc c hc
    | cons c0 rest =>
      simp only [List.length_cons] at hn
      by_cases hb : isLineBreak c0
      · by_cases hcr : c0 = '\r' ∧ rest.head? = some '\n'
        · obtain ⟨hc0, hh⟩ := hcr
          subst hc0
          cases rest with
          | nil => simp at hh
          | cons d rest2 =>
            have hd : d = '\n' := by simpa using hh
            subst hd
            rw [slg_crlf] at hp
            rcases List.mem_cons.mp hp with h1 | h2
            · subst h1
              rw [List.mem_reverse] at hc
              exact hacc c hc
            · exact ih rest2 (by simp at hn; omega) [] (by simp) p h2 c hc
        · rw [slg_cons_break acc c0 rest hb hcr] at hp
          rcases List.mem_cons.mp hp with h1 | h2
          · subst h1
            rw [List.mem_reverse] at hc
            exact hacc c hc
          · exact ih rest (by omega) [] (by simp) p h2 c hc
      · rw [slg_cons_nb acc c0 rest (by simpa using hb)] at hp
        refine ih rest (by omega) (c0 :: acc) ?_ p hp c hc
        intro x hx
        rcases List.mem_cons.mp hx with h1 | h2
        · subst h1; simpa using hb
        · exact hacc x h2

theorem splitlinesGo_all_free :
    ∀ (p acc : List Char), (∀ c ∈ p, isLineBreak c = false) →
    splitlinesGo acc p =
      if acc.isEmpty && p.isEmpty then [] else [acc.reverse ++ p] := by
  intro p
  induction p with
  | nil =>
    intro acc hfree
    rw [splitlinesGo.eq_1]
    by_cases ha : acc.isEmpty
    · simp [ha]
    · simp [ha]
  | cons c p2 ih =>
    intro acc hfree
    rw [slg_cons_nb acc c p2 (hfree c (List.mem_cons_self _ _))]
    rw [ih (c :: acc) (fun x hx => hfree x (List.mem_cons_of_mem _ hx))]
    simp

theorem splitlinesGo_append_nl :
    ∀ (p acc r : List Char), (∀ c ∈ p, isLineBreak c = false) →
    splitlinesGo acc (p ++ '\n' :: r) = (acc.reverse ++ p) :: splitlinesGo [] r := by
  intro p
  induction p with
  | nil =>
    intro acc r hfree
    rw [List.nil_append]
    rw [slg_cons_break acc '\n' r (by decide) (by simp)]
    simp
  | cons c p2 ih =>
    intro acc r hfree
    rw [List.cons_append]
    rw [slg_cons_nb acc c (p2 ++ '\n' :: r) (hfree c (List.mem_cons_self _ _))]
    rw [ih (c :: acc) r (fun x hx => hfree x (List.mem_cons_of_mem _ hx))]
    simp

theorem pySplitlines_joinNl :
    ∀ ps : List (List Char),
      (∀ p ∈ ps, ¬p.isEmpty ∧ ∀ c ∈ p, isLineBreak c = false) →
      pySplitlines (joinNl ps) = ps := by
  intro ps
  induction ps with
  | nil =>
    intro hps
    simp [pySplitlines, joinNl, splitlinesGo]
  | cons p ps2 ih =>
    intro hps
    have hp := hps p (List.mem_cons_self _ _)
    cases ps2 with
    | nil =>
      show splitlinesGo [] (joinNl [p]) = [p]
      simp only [joinNl]
      rw [splitlinesGo_all_free p [] hp.2]
      have : p.isEmpty = false := by
        cases hiso : p.isEmpty
        · rfl
        · exact absurd hiso hp.1
      simp [this]
    | cons q qs =>
      show splitlinesGo [] (joinNl (p :: q :: qs)) = p :: q :: qs
      simp only [joinNl]
      rw [splitlinesGo_append_nl p [] _ hp.2]
      simp only [List.reverse_nil, List.nil_append]
      have hrest := ih (fun x hx => hps x (List.mem_cons_of_mem _ hx))
      exact congrArg (p :: ·) hrest

theorem hasDoubleNl_of_free :
    ∀ l : List Char, (∀ c ∈ l, c ≠ '\n') → hasDoubleNl l = false := by
  intro l
  induction l with
  | nil => intro h; rfl
  | cons c rest ih =>
    intro h
    have hc : c ≠ '\n' := h c (List.mem_cons_self _ _)
    simp only [hasDoubleNl, Bool.or_eq_false_iff, Bool.and_eq_false_iff]
    constructor
    · left; simpa using hc
    · exact ih (fun x hx => h x (List.mem_cons_of_mem _ hx))

theorem hasDoubleNl_append :
    ∀ (p m : List Char), (∀ c ∈ p, c ≠ '\n') →
    hasDoubleNl (p ++ m) = hasDoubleNl m := by
  intro p
  induction p with
  | nil => intro m h; rfl
  | cons c p2 ih =>
    intro m h
    have hc : c ≠ '\n' := h c (List.mem_cons_self _ _)
    rw [List.cons_append]
    simp only [hasDoubleNl]
    rw [ih m (fun x hx => h x (List.mem_cons_of_mem _ hx))]
    have : (c == '\n') = false := by simpa using hc
    simp [this]

theorem joinNl_head_ne_nl (q : List Char) (qs : List (List Char))
    (hne : ¬q.isEmpty) (hfree : ∀ c ∈ q, c ≠ '\n') :
    (joinNl (q :: qs)).head? ≠ some '\n' := by
  cases q with
  | nil => simp at hne
  | cons c q2 =>
    have hc : c ≠ '\n' := hfree c (List.mem_cons_self _ _)
    cases qs with
    | nil => simpa [joinNl] using hc
    | cons r rs => simpa [joinNl] using hc

theorem joinNl_noDouble :
    ∀ ps : List (List Char),
      (∀ p ∈ ps, ¬p.isEmpty ∧ ∀ c ∈ p, c ≠ '\n') →
      hasDoubleNl (joinNl ps) = false := by
  intro ps
  induction ps with
  | nil => intro h; rfl
  | cons p ps2 ih =>
    intro h
    have hp := h p (List.mem_cons_self _ _)
    cases ps2 with
    | nil =>
      show hasDoubleNl (joinNl [p]) = false
      simp only [joinNl]
      exact hasDoubleNl_of_free p hp.2
    | cons q qs =>
      have hjoin : joinNl (p :: q :: qs) = p ++ '\n' :: joinNl (q :: qs) := rfl
      rw [hjoin, hasDoubleNl_append p _ hp.2]
      simp only [hasDoubleNl]
      have hq := h q (List.mem_cons_of_mem _ (List.mem_cons_self _ _))
      have hhead : (joinNl (q :: qs)).head? ≠ some '\n' :=
        joinNl_head_ne_nl q qs hq.1 hq.2
      have h1 : ((joinNl (q :: qs)).head? == some '\n') = false := by
        simpa using hhead
      have h2 : hasDoubleNl (joinNl (q :: qs)) = false :=
        ih (fun x hx => h x (List.mem_cons_of_mem _ hx))
      simp [h1, h2]

theorem collapseGo_id :
    ∀ l : List Char, hasDoubleNl l = false → collapseGo 0 l = l := by
  intro l
  induction l with
  | nil => intro h; rfl
  | cons c rest ih =>
    intro h
    simp only [hasDoubleNl, Bool.or_eq_false_iff, Bool.and_eq_false_iff] at h
    obtain ⟨hfirst, hrest⟩ := h
    have heq : collapseGo 0 (c :: rest) =
        if c = '\n' then collapseGo 1 rest
        else List.replicate (min 0 2) '\n' ++ c :: collapseGo 0 rest := rfl
    by_cases hc : c = '\n'
    · subst hc
      rw [heq, if_pos rfl]
      have hhead : (rest.head? == some '\n') = false := by
        rcases hfirst with h1 | h2
        · simp at h1
        · exact h2
      cases rest with
      | nil => rfl
      | cons d rest2 =>
        have hd : d ≠ '\n' := by
          intro hdeq
          rw [hdeq] at hhead
          simp at hhead
        have heq2 : collapseGo 1 (d :: rest2) =
            if d = '\n' then collapseGo 2 rest2
            else List.replicate (min 1 2) '\n' ++ d :: collapseGo 0 rest2 := rfl
        rw [heq2, if_neg hd]
        have ihd : collapseGo 0 (d :: rest2) = d :: rest2 := ih hrest
        have heq3 : collapseGo 0 (d :: rest2) =
            if d = '\n' then collapseGo 1 rest2
            else List.replicate (min 0 2) '\n' ++ d :: collapseGo 0 rest2 := rfl
        rw [heq3, if_neg hd] at ihd
        simp only [List.replicate, List.nil_append] at ihd
        rw [List.cons.injEq] at ihd
        rw [show min 1 2 = 1 from rfl]
        simp only [List.replicate, List.cons_append, List.nil_append]
        rw [ihd.2]
    · rw [heq, if_neg hc]
      rw [show min 0 2 = 0 from rfl]
      simp only [List.replicate, List.nil_append]
      rw [ih hrest]

theorem mem_pyStrip {l : List Char} {x : Char} (h : x ∈ pyStrip l) : x ∈ l := by
  unfold pyStrip at h
  rw [List.mem_reverse] at h
  have h2 := mem_dropWhile h
  rw [List.mem_reverse] at h2
  exact mem_dropWhile h2

theorem cleanedLines_spec (text : List Char) :
    ∀ p ∈ cleanedLines text,
      (¬p.isEmpty ∧ 3 < p.length) ∧ ∀ c ∈ p, isLineBreak c = false := by
  intro p hp
  unfold cleanedLines at hp
  rw [List.mem_filter] at hp
  obtain ⟨hmem, hpred⟩ := hp
  have hpred2 : ¬p.isEmpty ∧ 3 < p.length := of_decide_eq_true hpred
  refine ⟨hpred2, ?_⟩
  rw [List.mem_map] at hmem
  obtain ⟨q, hq, hqe⟩ := hmem
  intro c hc
  have hcq : c ∈ q := by
    rw [← hqe] at hc
    exact mem_pyStrip hc
  exact splitlinesGo_pieces_free text.length text (Nat.le_refl _) [] (by simp) q hq c hcq

/-- Claim C10: the newline-collapsing substitution of line 91 never
changes the joined string — the cleaned output is exactly the
newline-join of the filtered lines — and every line of the returned text
is non-empty and longer than 3 characters, for every text extracted from
the markup; in particular the output has no blank line. -/
theorem clean_body_text_lines (text : List Char) :
    clean_body_text text = joinNl (cleanedLines text) ∧
      ∀ l ∈ pySplitlines (clean_body_text text), ¬l.isEmpty ∧ 3 < l.length := by
  have hspec := cleanedLines_spec text
  have hnlfree : ∀ p ∈ cleanedLines text, ¬p.isEmpty ∧ ∀ c ∈ p, c ≠ '\n' := by
    intro p hp
    refine ⟨(hspec p hp).1.1, ?_⟩
    intro c hc hceq
    have := (hspec p hp).2 c hc
    rw [hceq] at this
    simp [isLineBreak] at this
  have hnodouble : hasDoubleNl (joinNl (cleanedLines text)) = false :=
    joinNl_noDouble _ hnlfree
  have h1 : clean_body_text text = joinNl (cleanedLines text) :=
    collapseGo_id _ hnodouble
  refine ⟨h1, ?_⟩
  intro l hl
  rw [h1] at hl
  rw [pySplitlines_joinNl _ (fun p hp => ⟨(hspec p hp).1.1, (hspec p hp).2⟩)] at hl
  exact (hspec l hl).1

/-- Witness for claim C10 at a concrete input: on the text
hello / ab / world wide / blank / blank / blank / xyzw (newline
separated) the collapse step is the identity on the joined lines, and the
concrete output line hello is non-empty with more than 3 characters. -/
theorem clean_body_text_lines_witness :
    clean_body_text ("hello\nab\nworld wide\n\n\n\nxyzw".toList) =
        joinNl (cleanedLines ("hello\nab\nworld wide\n\n\n\nxyzw".toList)) ∧
      (¬("hello".toList).isEmpty ∧ 3 < ("hello".toList).length) :=
  ⟨(clean_body_text_lines ("hello\nab\nworld wide\n\n\n\nxyzw".toList)).1,
    (clean_body_text_lines ("hello\nab\nworld wide\n\n\n\nxyzw".toList)).2
      ("hello".toList) (by decide)⟩
